import Mathlib

/-!
Shallow embedding of the Video2Pod dialogue synthesis and timeline engine
(src/tts.py) and of the Volcengine transcription cache/state machine
(src/transcriber.py), together with proofs settling the frozen claims.

Text is modelled as a list of characters; audio is modelled by piece lists
carrying durations in milliseconds; remote providers are modelled by
explicit oracles/environments so that runs are pure functions.
-/

namespace Video2Pod

abbrev Str := List Char

/-- Whitespace characters stripped by the Python str.strip default
(ASCII whitespace plus the ideographic space). -/
def isPySpace (c : Char) : Bool :=
  c = ' ' || c = '\t' || c = '\n' || c = '\r' || c = '\x0b' || c = '\x0c' ||
  c.toNat = 0x3000

/-- Python str.strip: remove leading and trailing whitespace. -/
def pyStrip (s : Str) : Str :=
  ((s.dropWhile isPySpace).reverse.dropWhile isPySpace).reverse

/-- Opening brackets recognised by the annotation-removal regex in
clean_text_for_tts. -/
def openerB (c : Char) : Bool :=
  c = '(' || c = '[' || c = '\x7b' || c = '（' || c = '【'

/-- Closing brackets recognised by the annotation-removal regex in
clean_text_for_tts. -/
def closerB (c : Char) : Bool :=
  c = ')' || c = ']' || c = '\x7d' || c = '）' || c = '】'

/-- Scan for the first closing bracket and return the suffix after it;
fails at a newline, mirroring the non-greedy dot (which does not match
newline) of the removal regex. The length certificate drives termination
of the annotation stripper. -/
def findCloserSplit : (s : Str) → Option { r : Str // r.length < s.length }
  | [] => none
  | c :: rest =>
    if closerB c then some ⟨rest, by simp⟩
    else if c = '\n' then none
    else
      match findCloserSplit rest with
      | some r => some ⟨r.1, by
          have := r.2
          simp only [List.length_cons]
          omega⟩
      | none => none

/-- Fuel-indexed worker of the annotation stripper; consuming one fuel
unit per character keeps the recursion structural (fuel equal to the
input length always suffices because each step strictly shortens the
input). -/
def stripAnnotsF : Nat → Str → Str
  | _, [] => []
  | 0, s => s
  | f + 1, c :: rest =>
    if openerB c then
      match findCloserSplit rest with
      | some r => stripAnnotsF f r.1
      | none => c :: stripAnnotsF f rest
    else c :: stripAnnotsF f rest

/-- Remove bracketed annotations, mirroring re.sub applied to the
opener-dot-closer non-greedy pattern in clean_text_for_tts: at each
opening bracket with a reachable closing bracket on the same line, drop
everything through the nearest closer. -/
def stripAnnots (s : Str) : Str := stripAnnotsF s.length s

/-- clean_text_for_tts: bracket-annotation removal, markdown marker
removal, then strip. -/
def cleanTextForTts (s : Str) : Str :=
  pyStrip ((stripAnnots s).filter (fun c => c ≠ '*' && c ≠ '_'))

/-- Approximation of the Python str.isalnum test for the alphabets the
pipeline handles: ASCII alphanumerics, CJK ideographs, kana, and
fullwidth digits. -/
def isAlnumPy (c : Char) : Bool :=
  c.isAlphanum ||
  (0x4E00 ≤ c.toNat && c.toNat ≤ 0x9FFF) ||
  (0x3400 ≤ c.toNat && c.toNat ≤ 0x4DBF) ||
  (0x3040 ≤ c.toNat && c.toNat ≤ 0x30FF) ||
  (0xFF10 ≤ c.toNat && c.toNat ≤ 0xFF19)

/-- The delimiter class of split_text_smart: the ideographic period,
ideographic and ASCII exclamation and question marks and semicolons.
The ASCII period is absent in the source. -/
def isDelim (c : Char) : Bool :=
  c = '。' || c = '！' || c = '？' || c = '；' || c = '!' || c = '?' || c = ';'

/-- re.split with a captured single-character delimiter class: alternating
text parts and singleton delimiter parts, empty parts preserved. -/
def reSplitKeep : Str → List Str
  | [] => [[]]
  | c :: rest =>
    if isDelim c then [] :: [c] :: reSplitKeep rest
    else
      match reSplitKeep rest with
      | p :: ps => (c :: p) :: ps
      | [] => [[c]]

/-- re.match of the delimiter class against a part: tests the first
character. -/
def partStartsDelim : Str → Bool
  | [] => false
  | c :: _ => isDelim c

/-- The conditional append used by split_text_smart: keep the stripped
chunk only when it is nonempty. -/
def maybeAppend (chunk : Str) (rest : List Str) : List Str :=
  if pyStrip chunk = [] then rest else pyStrip chunk :: rest

/-- The accumulation loop of split_text_smart over the regex parts. -/
def chunksLoop : List Str → Str → List Str
  | [], cur => maybeAppend cur []
  | p :: ps, cur =>
    if partStartsDelim p then maybeAppend (cur ++ p) (chunksLoop ps [])
    else chunksLoop ps (cur ++ p)

/-- split_text_smart: split on the delimiter class, keeping each delimiter
at the end of the chunk it closes, discarding whitespace-only chunks. -/
def splitTextSmart (t : Str) : List Str :=
  chunksLoop (reSplitKeep t) []

/-- Fused single-pass form of split_text_smart used by the proofs. -/
def splitGo : Str → Str → List Str
  | [], cur => maybeAppend cur []
  | c :: rest, cur =>
    if isDelim c then maybeAppend (cur ++ [c]) (splitGo rest [])
    else splitGo rest (cur ++ [c])

/-- Speaker roles of the dialogue script. -/
inductive Role
  | host
  | guest
deriving DecidableEq, Repr

/-- TTS provider families selected by the per-role config. -/
inductive Provider
  | edge
  | volc
deriving DecidableEq, Repr

/-- Python str.split with separator, applied to the newline separator:
empty lines are preserved. -/
def splitOnNewline : Str → List Str
  | [] => [[]]
  | c :: rest =>
    if c = '\n' then [] :: splitOnNewline rest
    else
      match splitOnNewline rest with
      | p :: ps => (c :: p) :: ps
      | [] => [[c]]

/-- Per-line role detection and content extraction of
generate_dialogue_audio: strip the line, skip blank lines, match the two
recognised role markers (with fullwidth or halfwidth colon), strip the
marker and surrounding whitespace, skip lines whose content is empty. -/
def parseLine (line : Str) : Option (Role × Str) :=
  let l := pyStrip line
  if l = [] then none
  else
    let rc : Role × Str :=
      if ("主持人：".toList).isPrefixOf l || ("主持人:".toList).isPrefixOf l then
        (Role.host, pyStrip (l.drop 4))
      else if ("嘉宾：".toList).isPrefixOf l || ("嘉宾:".toList).isPrefixOf l then
        (Role.guest, pyStrip (l.drop 3))
      else (Role.host, l)
    if rc.2 = [] then none else some rc

/-- Chunking of one line's content: split_text_smart, falling back to the
whole content when the splitter returns nothing. -/
def lineChunks (content : Str) : List Str :=
  let cs := splitTextSmart content
  if cs = [] then [content] else cs

/-- The ordered role-tagged chunk list the synthesis loop of
generate_dialogue_audio iterates over; positions equal the global segment
indices. -/
def parseScript (text : Str) : List (Role × Str) :=
  (splitOnNewline (pyStrip text)).flatMap (fun line =>
    match parseLine line with
    | none => []
    | some (r, content) => (lineChunks content).map (fun ch => (r, ch)))

/-- Outcome of one synthesis dispatch: intentionally-empty skip (the
provider returned None and wrote no file), a written audio file of the
given duration, or a raised exception after the provider's retries. -/
inductive SynthOut
  | skipped
  | audio (d : Nat)
  | failed
deriving DecidableEq, Repr

/-- Remote synthesis oracle: for each global segment index, the duration
of the audio the provider produces, or none when the provider permanently
fails (raises after exhausting its retries). -/
abbrev Oracle := Nat → Option Nat

/-- generate_audio_sync as a function of the chunk text, the provider and
the remote oracle: the Volcengine path skips when the cleaned text is
empty or has no alphanumeric character; the Edge path skips only when the
cleaned text is empty. -/
def synthOutcome (oracle : Oracle) (prov : Provider) (txt : Str) (i : Nat) :
    SynthOut :=
  let t := cleanTextForTts txt
  match prov with
  | .volc =>
    if t = [] || !(t.any isAlnumPy) then .skipped
    else
      match oracle i with
      | some d => .audio d
      | none => .failed
  | .edge =>
    if t = [] then .skipped
    else
      match oracle i with
      | some d => .audio d
      | none => .failed

/-- One entry of the valid_segments list: the per-chunk file name is
identified by its global segment index. -/
structure SegRec where
  fileIdx : Nat
  content : Str
  role : Role
deriving DecidableEq, Repr

/-- Result of the synthesis loop: the accumulated valid_segments list,
the store of actually written segment files (index to duration), and the
number of chunks dropped through the exception handler. -/
structure Phase1 where
  segs : List SegRec
  store : List (Nat × Nat)
  dropped : Nat
deriving DecidableEq, Repr

/-- Provider of a role, as selected by host_config and guest_config. -/
def provOf (hp gp : Provider) (r : Role) : Provider :=
  match r with
  | .host => hp
  | .guest => gp

/-- The synthesis loop of generate_dialogue_audio over the chunk list,
starting at global segment index b: a raised synthesis failure drops the
chunk (logged and counted), every non-raising dispatch appends the
segment record, and only a dispatch that actually produced audio adds a
file-store entry. -/
def synthLoop (oracle : Oracle) (hp gp : Provider) :
    List (Role × Str) → Nat → Phase1
  | [], _ => ⟨[], [], 0⟩
  | (r, ch) :: rest, b =>
    let p := synthLoop oracle hp gp rest (b + 1)
    match synthOutcome oracle (provOf hp gp r) ch b with
    | .failed => ⟨p.segs, p.store, p.dropped + 1⟩
    | .skipped => ⟨⟨b, ch, r⟩ :: p.segs, p.store, p.dropped⟩
    | .audio d => ⟨⟨b, ch, r⟩ :: p.segs, (b, d) :: p.store, p.dropped⟩

/-- A piece of the stitched output audio: one segment's audio or an
inserted silence, both measured in milliseconds. -/
inductive Piece
  | seg (d : Nat)
  | silence (d : Nat)
deriving DecidableEq, Repr

/-- Zero-padded decimal rendering used by the SRT timestamp format. -/
def padZeros (k n : Nat) : Str :=
  List.replicate (k - (Nat.toDigits 10 n).length) '0' ++ Nat.toDigits 10 n

/-- format_srt_time: milliseconds to an HH:MM:SS,mmm timestamp. -/
def formatSrtTime (ms : Nat) : Str :=
  let seconds := ms / 1000
  let milliseconds := ms % 1000
  let minutes := seconds / 60
  let secs := seconds % 60
  let hours := minutes / 60
  let mins := minutes % 60
  padZeros 2 hours ++ [':'] ++ padZeros 2 mins ++ [':'] ++ padZeros 2 secs ++
    [','] ++ padZeros 3 milliseconds

/-- The fixed role colors of the SRT cue markup. -/
def roleColor (r : Role) : Str :=
  match r with
  | .host => "#FFD700".toList
  | .guest => "#00FFFF".toList

/-- One SRT cue as assembled by the stitching loop: cue number, the
start/end cursor values in milliseconds, the segment duration, the
rendered timestamps, the role color and the cue text. -/
structure Cue where
  num : Nat
  startMs : Nat
  endMs : Nat
  durMs : Nat
  startStr : Str
  endStr : Str
  color : Str
  content : Str
  role : Role
deriving DecidableEq, Repr

/-- One entry of the captions array of the Remotion JSON document. -/
structure Caption where
  startMs : Nat
  endMs : Nat
  content : Str
  role : Role
deriving DecidableEq, Repr

/-- Duration lookup for a segment file: loading a file that synthesis
never wrote raises. -/
def lookupDur (store : List (Nat × Nat)) (i : Nat) : Option Nat :=
  List.lookup i store

/-- The stitching loop of generate_dialogue_audio: in segment order, load
the segment file (raising when it is missing), append its audio and a
fixed 300 ms silence to the output, and emit the numbered SRT cue; n is
the enumerate counter and t the running cursor current_time_ms. -/
def srtPass (store : List (Nat × Nat)) :
    List SegRec → Nat → Nat → Except Str (List Piece × List Cue)
  | [], _, _ => .ok ([], [])
  | s :: rest, n, t =>
    match lookupDur store s.fileIdx with
    | none => .error ("missing segment file".toList)
    | some d =>
      match srtPass store rest (n + 1) (t + d + 300) with
      | .error e => .error e
      | .ok (ps, cs) =>
        .ok (Piece.seg d :: Piece.silence 300 :: ps,
          { num := n + 1, startMs := t, endMs := t + d, durMs := d,
            startStr := formatSrtTime t, endStr := formatSrtTime (t + d),
            color := roleColor s.role, content := s.content,
            role := s.role } :: cs)

/-- The separate JSON timestamp pass of generate_dialogue_audio: re-read
every segment file (raising when it is missing) and accumulate the
captions and the final cursor curr_ms_json. -/
def jsonPass (store : List (Nat × Nat)) :
    List SegRec → Nat → Except Str (List Caption × Nat)
  | [], t => .ok ([], t)
  | s :: rest, t =>
    match lookupDur store s.fileIdx with
    | none => .error ("missing segment file".toList)
    | some d =>
      match jsonPass store rest (t + d + 300) with
      | .error e => .error e
      | .ok (cs, total) =>
        .ok ({ startMs := t, endMs := t + d, content := s.content,
               role := s.role } :: cs, total)

/-- The artifacts of one successful generate_dialogue_audio run: the
stitched audio pieces, the SRT cues, the JSON captions, the final JSON
cursor in milliseconds, and the number of dropped chunks reported through
the error log. -/
structure RunResult where
  pieces : List Piece
  cues : List Cue
  captions : List Caption
  totalMs : Nat
  dropped : Nat
deriving DecidableEq, Repr

/-- durationInSeconds of the JSON document: the final cursor divided by
1000. -/
def durationInSeconds (res : RunResult) : ℚ :=
  (res.totalMs : ℚ) / 1000

/-- generate_dialogue_audio: parse the script, synthesize every chunk,
fail when no segment record was accumulated, then stitch the audio with
the SRT pass and recompute the caption timestamps with the JSON pass. -/
def dialogueRun (oracle : Oracle) (hp gp : Provider) (text : Str) :
    Except Str RunResult :=
  let p := synthLoop oracle hp gp (parseScript text) 0
  if p.segs = [] then .error ("No audio segments generated.".toList)
  else
    match srtPass p.store p.segs 0 0 with
    | .error e => .error e
    | .ok (pieces, cues) =>
      match jsonPass p.store p.segs 0 with
      | .error e => .error e
      | .ok (caps, total) => .ok ⟨pieces, cues, caps, total, p.dropped⟩

/-- The value tuple of an SRT cue compared across artifacts. -/
def cueQuad (c : Cue) : Nat × Nat × Str × Role :=
  (c.startMs, c.endMs, c.content, c.role)

/-- The value tuple of a JSON caption compared across artifacts. -/
def capQuad (c : Caption) : Nat × Nat × Str × Role :=
  (c.startMs, c.endMs, c.content, c.role)

/-- Remote environment of the Volcengine transcription flow: the TOS
upload result for a file content, the task id issued for an uploaded url,
the number of non-terminal polls before a task resolves, and the terminal
result of a task. -/
structure RemoteEnv where
  urlOf : Str → Str
  submitId : Str → Str
  pending : Str → Nat
  final : Str → Except Str Str

/-- Local state of the transcription flow: the audio files on disk (path
to content) and the transcript cache files (audio path to transcript). -/
structure TransState where
  fs : List (Str × Str)
  cache : List (Str × Str)
deriving DecidableEq, Repr

/-- Observable remote interactions of one transcribe_volc call. -/
inductive TEvent
  | upload (path : Str)
  | submit (url : Str)
  | callback (id : Str)
  | poll (id : Str)
deriving DecidableEq, Repr

/-- transcribe_volc: check the file exists, return a cached transcript if
the per-path cache file exists, otherwise resume the given task id or
upload and submit a new task (invoking the task-id callback right after
submission), poll the task to its terminal state, and persist a
successful transcript in the cache. -/
def transcribeVolc (env : RemoteEnv) (st : TransState) (path : Str)
    (resume : Option Str) (hasCb : Bool) :
    Except Str Str × TransState × List TEvent :=
  match List.lookup path st.fs with
  | none => (.error ("Audio file not found".toList), st, [])
  | some content =>
    match List.lookup path st.cache with
    | some t => (.ok t, st, [])
    | none =>
      let idPre : Str × List TEvent :=
        match resume with
        | some id => (id, [])
        | none =>
          let url := env.urlOf content
          let id := env.submitId url
          (id, [TEvent.upload path, TEvent.submit url] ++
            (if hasCb then [TEvent.callback id] else []))
      let tid := idPre.1
      let evs := idPre.2 ++ List.replicate (env.pending tid + 1) (TEvent.poll tid)
      match env.final tid with
      | .ok t => (.ok t, ⟨st.fs, (path, t) :: st.cache⟩, evs)
      | .error m => (.error m, st, evs)

/-- Number of remote submission calls in an event trace. -/
def countSubmits (evs : List TEvent) : Nat :=
  evs.countP (fun e => match e with | TEvent.submit _ => true | _ => false)

/-- Projection of a successful run result, with a default for the error
case; used to name concrete run results in closed statements. -/
def getOk (e : Except Str RunResult) (d : RunResult) : RunResult :=
  match e with
  | .ok r => r
  | .error _ => d

/-- The empty run result, used as the default of getOk. -/
def emptyRun : RunResult := ⟨[], [], [], 0, 0⟩

/-- Concrete remote environment for the cache counterexample: urls and
task ids are derived injectively and every task succeeds at once. -/
def envC : RemoteEnv :=
  ⟨fun c => 'u' :: c, fun u => 't' :: u, fun _ => 0, fun _ => .ok ("文".toList)⟩

/-- Concrete local state for the cache counterexample: two distinct audio
paths holding identical file content, empty cache. -/
def stC : TransState :=
  ⟨[("a.mp3".toList, "X".toList), ("b.mp3".toList, "X".toList)], []⟩

/-- Concrete remote environment for the resume/callback witness. -/
def envR : RemoteEnv :=
  ⟨fun c => 'U' :: c, fun u => 'T' :: u, fun _ => 1, fun _ => .ok ("好".toList)⟩

/-- Concrete local state for the resume/callback witness. -/
def stR : TransState := ⟨[("p.mp3".toList, "C".toList)], []⟩

lemma reSplitKeep_shape (t : Str) :
    ∃ p ps, reSplitKeep t = p :: ps ∧ partStartsDelim p = false := by
  induction t with
  | nil => exact ⟨[], [], rfl, rfl⟩
  | cons c rest ih =>
    by_cases hc : isDelim c
    · exact ⟨[], [c] :: reSplitKeep rest, by simp [reSplitKeep, hc], rfl⟩
    · obtain ⟨p, ps, hps, _⟩ := ih
      exact ⟨c :: p, ps, by simp [reSplitKeep, hc, hps], by
        simp [partStartsDelim, hc]⟩

lemma chunksLoop_reSplitKeep (t : Str) :
    ∀ cur, chunksLoop (reSplitKeep t) cur = splitGo t cur := by
  induction t with
  | nil =>
    intro cur
    simp [reSplitKeep, chunksLoop, partStartsDelim, splitGo]
  | cons c rest ih =>
    intro cur
    by_cases hc : isDelim c
    · simp [reSplitKeep, hc, chunksLoop, partStartsDelim, splitGo, ih]
    · obtain ⟨p, ps, hps, hp⟩ := reSplitKeep_shape rest
      have h1 : reSplitKeep (c :: rest) = (c :: p) :: ps := by
        simp [reSplitKeep, hc, hps]
      have h2 : partStartsDelim (c :: p) = false := by
        simp [partStartsDelim, hc]
      have h3 := ih (cur ++ [c])
      rw [hps] at h3
      simp only [chunksLoop, hp] at h3
      simp only [h1, chunksLoop, h2, splitGo, hc, if_neg]
      rw [← h3]
      simp

/-- splitTextSmart coincides with its fused single-pass form. -/
lemma splitTextSmart_eq_splitGo (t : Str) : splitTextSmart t = splitGo t [] :=
  chunksLoop_reSplitKeep t []

lemma filter_dropWhile_space (s : Str) :
    (s.dropWhile isPySpace).filter (fun c => !isPySpace c) =
      s.filter (fun c => !isPySpace c) := by
  induction s with
  | nil => rfl
  | cons c rest ih =>
    by_cases hc : isPySpace c
    · simp [List.dropWhile_cons, hc, ih]
    · simp [List.dropWhile_cons, hc]

lemma filter_pyStrip (s : Str) :
    (pyStrip s).filter (fun c => !isPySpace c) =
      s.filter (fun c => !isPySpace c) := by
  unfold pyStrip
  rw [List.filter_reverse, filter_dropWhile_space, List.filter_reverse,
    List.reverse_reverse, filter_dropWhile_space]

lemma pyStrip_sublist (s : Str) : (pyStrip s).Sublist s := by
  unfold pyStrip
  have h1 : (s.dropWhile isPySpace).Sublist s := List.dropWhile_sublist _
  have h2 : (((s.dropWhile isPySpace).reverse.dropWhile isPySpace)).Sublist
      (s.dropWhile isPySpace).reverse := List.dropWhile_sublist _
  have h3 := h2.reverse
  rw [List.reverse_reverse] at h3
  exact h3.trans h1

lemma pyStrip_of_all_space {s : Str} (h : ∀ c ∈ s, isPySpace c = true) :
    pyStrip s = [] := by
  unfold pyStrip
  rw [List.dropWhile_eq_nil_iff.mpr h]
  rfl

lemma mem_maybeAppend {chunk x : Str} {rest : List Str}
    (h : chunk ∈ maybeAppend x rest) :
    (chunk = pyStrip x ∧ pyStrip x ≠ []) ∨ chunk ∈ rest := by
  unfold maybeAppend at h
  by_cases hx : pyStrip x = []
  · rw [if_pos hx] at h
    exact Or.inr h
  · rw [if_neg hx] at h
    rcases List.mem_cons.mp h with h | h
    · exact Or.inl ⟨h, hx⟩
    · exact Or.inr h

lemma join_maybeAppend (x : Str) (rest : List Str) :
    ((maybeAppend x rest).flatten).filter (fun c => !isPySpace c) =
      x.filter (fun c => !isPySpace c) ++
        (rest.flatten).filter (fun c => !isPySpace c) := by
  unfold maybeAppend
  by_cases hx : pyStrip x = []
  · rw [if_pos hx]
    have : x.filter (fun c => !isPySpace c) = [] := by
      rw [← filter_pyStrip, hx]
      rfl
    rw [this]
    rfl
  · rw [if_neg hx]
    simp only [List.flatten_cons, List.filter_append, filter_pyStrip]

lemma splitGo_join (t : Str) : ∀ cur : Str,
    ((splitGo t cur).flatten).filter (fun c => !isPySpace c) =
      (cur ++ t).filter (fun c => !isPySpace c) := by
  induction t with
  | nil =>
    intro cur
    rw [splitGo, join_maybeAppend]
    simp
  | cons c rest ih =>
    intro cur
    by_cases hc : isDelim c
    · rw [splitGo, if_pos hc, join_maybeAppend, ih []]
      simp only [List.nil_append]
      cases hsp : (!isPySpace c) <;>
        simp [List.filter_append, List.filter_cons, hsp]
    · rw [splitGo, if_neg hc, ih (cur ++ [c])]
      simp [List.filter_append]

lemma delim_not_space {c : Char} (h : isDelim c = true) :
    isPySpace c = false := by
  unfold isDelim at h
  simp only [Bool.or_eq_true, decide_eq_true_eq] at h
  rcases h with ((((((h | h) | h) | h) | h) | h) | h) <;> subst h <;> rfl

lemma dropWhile_append_single {c : Char} (l : Str)
    (hc : isPySpace c = false) :
    (l ++ [c]).dropWhile isPySpace = l.dropWhile isPySpace ++ [c] := by
  induction l with
  | nil => simp [List.dropWhile_cons, hc]
  | cons x xs ih =>
    by_cases hx : isPySpace x
    · simp [List.dropWhile_cons, hx, ih]
    · simp [List.dropWhile_cons, hx]

lemma pyStrip_append_single {c : Char} (l : Str)
    (hc : isPySpace c = false) :
    pyStrip (l ++ [c]) = l.dropWhile isPySpace ++ [c] := by
  unfold pyStrip
  rw [dropWhile_append_single l hc]
  rw [List.reverse_append]
  simp only [List.reverse_cons, List.reverse_nil, List.nil_append,
    List.singleton_append, List.dropWhile_cons, hc]
  simp

lemma pyStrip_filter_ne {x : Str} (h : pyStrip x ≠ []) :
    (pyStrip x).filter (fun c => !isPySpace c) ≠ [] := by
  intro hfil
  apply h
  rw [filter_pyStrip] at hfil
  apply pyStrip_of_all_space
  intro c hc
  by_contra hns
  have hns2 : isPySpace c = false := by
    cases hb : isPySpace c
    · rfl
    · exact absurd hb hns
  have hmem : c ∈ x.filter (fun c => !isPySpace c) :=
    List.mem_filter.mpr ⟨hc, by simp [hns2]⟩
  rw [hfil] at hmem
  exact absurd hmem (List.not_mem_nil c)

lemma splitGo_no_delim (t : Str) : ∀ cur,
    (∀ c ∈ t, isDelim c = false) →
      splitGo t cur = maybeAppend (cur ++ t) [] := by
  induction t with
  | nil =>
    intro cur _
    rw [splitGo]
    simp
  | cons c rest ih =>
    intro cur h
    have hc : isDelim c = false := h c (List.mem_cons_self c rest)
    rw [splitGo, if_neg (by simp [hc]),
      ih (cur ++ [c]) (fun x hx => h x (List.mem_cons_of_mem _ hx))]
    simp

lemma splitGo_chunk_nonspace (t : Str) : ∀ cur, ∀ chunk ∈ splitGo t cur,
    chunk.filter (fun c => !isPySpace c) ≠ [] := by
  induction t with
  | nil =>
    intro cur chunk hm
    rw [splitGo] at hm
    rcases mem_maybeAppend hm with ⟨rfl, hne⟩ | h
    · exact pyStrip_filter_ne hne
    · exact absurd h (List.not_mem_nil chunk)
  | cons c rest ih =>
    intro cur chunk hm
    by_cases hc : isDelim c
    · rw [splitGo, if_pos hc] at hm
      rcases mem_maybeAppend hm with ⟨rfl, hne⟩ | h
      · exact pyStrip_filter_ne hne
      · exact ih [] chunk h
    · rw [splitGo, if_neg hc] at hm
      exact ih (cur ++ [c]) chunk hm

lemma splitGo_dropLast_ends (t : Str) : ∀ cur,
    ∀ chunk ∈ (splitGo t cur).dropLast,
      ∃ d, chunk.getLast? = some d ∧ isDelim d = true := by
  induction t with
  | nil =>
    intro cur chunk hm
    rw [splitGo] at hm
    unfold maybeAppend at hm
    by_cases hx : pyStrip cur = []
    · rw [if_pos hx] at hm
      exact absurd hm (List.not_mem_nil chunk)
    · rw [if_neg hx] at hm
      simp at hm
  | cons c rest ih =>
    intro cur chunk hm
    by_cases hc : isDelim c
    · rw [splitGo, if_pos hc] at hm
      have hsp : isPySpace c = false := delim_not_space hc
      have hchar := pyStrip_append_single cur hsp
      have hne : pyStrip (cur ++ [c]) ≠ [] := by
        rw [hchar]
        simp
      unfold maybeAppend at hm
      rw [if_neg hne] at hm
      cases hR : splitGo rest [] with
      | nil =>
        rw [hR] at hm
        simp at hm
      | cons r rs =>
        rw [hR, List.dropLast_cons₂] at hm
        rcases List.mem_cons.mp hm with rfl | hm2
        · refine ⟨c, ?_, hc⟩
          rw [hchar]
          exact List.getLast?_concat _
        · have := ih [] chunk (by rw [hR]; exact hm2)
          exact this
    · rw [splitGo, if_neg hc] at hm
      exact ih (cur ++ [c]) chunk hm

lemma splitGo_interior (t : Str) : ∀ cur,
    (∀ c ∈ cur, isDelim c = false) →
      ∀ chunk ∈ splitGo t cur, ∀ c ∈ chunk.dropLast, isDelim c = false := by
  induction t with
  | nil =>
    intro cur hcur chunk hm c hc
    rw [splitGo] at hm
    rcases mem_maybeAppend hm with ⟨rfl, _⟩ | h
    · exact hcur c
        ((pyStrip_sublist cur).subset ((List.dropLast_sublist _).subset hc))
    · exact absurd h (List.not_mem_nil chunk)
  | cons ch rest ih =>
    intro cur hcur chunk hm c hc
    by_cases hd : isDelim ch
    · rw [splitGo, if_pos hd] at hm
      rcases mem_maybeAppend hm with ⟨rfl, _⟩ | h
      · have hchar := pyStrip_append_single cur (delim_not_space hd)
        rw [hchar] at hc
        rw [List.dropLast_concat] at hc
        exact hcur c ((List.dropWhile_sublist _).subset hc)
      · exact ih [] (by simp) chunk h c hc
    · rw [splitGo, if_neg hd] at hm
      refine ih (cur ++ [ch]) ?_ chunk hm c hc
      intro x hx
      rcases List.mem_append.mp hx with hx | hx
      · exact hcur x hx
      · simp only [List.mem_singleton] at hx
        subst hx
        simpa using hd

/-- C6: concatenating the chunks split_text_smart produces for an
utterance, in order, reproduces the utterance's characters losslessly up
to the whitespace stripped at chunk boundaries: the non-whitespace
character sequences agree exactly. -/
theorem c6_segmentation_roundtrip (t : Str) :
    ((splitTextSmart t).flatten).filter (fun c => !isPySpace c) =
      t.filter (fun c => !isPySpace c) := by
  rw [splitTextSmart_eq_splitGo]
  simpa using splitGo_join t []

/-- C7 counterexample: the ASCII period is not in the delimiter set, so a
text with an interior ASCII period is returned as one single chunk with
the period strictly inside it, refuting the claimed split at ASCII
periods. -/
theorem c7_ascii_period_no_split :
    splitTextSmart ("a.b".toList) = ["a.b".toList] := by rfl

/-- C7 amended: split_text_smart splits exactly at the delimiter set
。！？；!?; (which has no ASCII period): delimiters occur only as the
final character of a chunk, every non-final chunk ends with its closing
delimiter, empty and whitespace-only chunks are discarded, commas never
split, and a nonblank utterance with no delimiter at all is exactly one
chunk. -/
theorem c7_split_characterisation (t u : Str)
    (hu1 : ∀ c ∈ u, isDelim c = false) (hu2 : pyStrip u ≠ []) :
    (∀ chunk ∈ splitTextSmart t, ∀ c ∈ chunk.dropLast, isDelim c = false) ∧
    (∀ chunk ∈ (splitTextSmart t).dropLast,
      ∃ d, chunk.getLast? = some d ∧ isDelim d = true) ∧
    (∀ chunk ∈ splitTextSmart t,
      chunk.filter (fun c => !isPySpace c) ≠ []) ∧
    splitTextSmart u = [pyStrip u] := by
  refine ⟨?_, ?_, ?_, ?_⟩
  · rw [splitTextSmart_eq_splitGo]
    exact splitGo_interior t [] (by simp)
  · rw [splitTextSmart_eq_splitGo]
    exact splitGo_dropLast_ends t []
  · rw [splitTextSmart_eq_splitGo]
    exact splitGo_chunk_nonspace t []
  · rw [splitTextSmart_eq_splitGo, splitGo_no_delim u [] hu1]
    unfold maybeAppend
    rw [List.nil_append, if_neg hu2]

/-- Witness for the amended C7 at concrete utterances: a two-sentence
text with mixed delimiters and an utterance with a comma and no
delimiter. -/
theorem c7_split_characterisation_witness :
    (∀ c ∈ ("哈喷哈，你好".toList), isDelim c = false) ∧
    pyStrip ("哈喷哈，你好".toList) ≠ [] ∧
    ((∀ chunk ∈ splitTextSmart ("你好，我是主持人。欢迎收听！".toList),
      ∀ c ∈ chunk.dropLast, isDelim c = false) ∧
    (∀ chunk ∈ (splitTextSmart ("你好，我是主持人。欢迎收听！".toList)).dropLast,
      ∃ d, chunk.getLast? = some d ∧ isDelim d = true) ∧
    (∀ chunk ∈ splitTextSmart ("你好，我是主持人。欢迎收听！".toList),
      chunk.filter (fun c => !isPySpace c) ≠ []) ∧
    splitTextSmart ("哈喷哈，你好".toList) = [pyStrip ("哈喷哈，你好".toList)]) :=
  ⟨by decide, by decide,
    c7_split_characterisation ("你好，我是主持人。欢迎收听！".toList)
      ("哈喷哈，你好".toList) (by decide) (by decide)⟩

lemma srtPass_len (store : List (Nat × Nat)) :
    ∀ recs n t ps cs, srtPass store recs n t = .ok (ps, cs) →
      cs.length = recs.length := by
  intro recs
  induction recs with
  | nil =>
    intro n t ps cs h
    rw [srtPass] at h
    injection h with h
    rw [← (Prod.mk.injEq _ _ _ _).mp h |>.2]
    rfl
  | cons s rest ih =>
    intro n t ps cs h
    rw [srtPass] at h
    split at h
    · exact absurd h (by simp)
    · split at h
      · exact absurd h (by simp)
      · rename_i d hl ps1 cs1 hr
        injection h with h
        obtain ⟨-, h2⟩ := (Prod.mk.injEq _ _ _ _).mp h
        rw [← h2]
        simp [ih _ _ _ _ hr]

lemma jsonPass_len (store : List (Nat × Nat)) :
    ∀ recs t caps total, jsonPass store recs t = .ok (caps, total) →
      caps.length = recs.length := by
  intro recs
  induction recs with
  | nil =>
    intro t caps total h
    rw [jsonPass] at h
    injection h with h
    rw [← (Prod.mk.injEq _ _ _ _).mp h |>.1]
    rfl
  | cons s rest ih =>
    intro t caps total h
    rw [jsonPass] at h
    split at h
    · exact absurd h (by simp)
    · split at h
      · exact absurd h (by simp)
      · rename_i d hl caps1 total1 hr
        injection h with h
        obtain ⟨h1, -⟩ := (Prod.mk.injEq _ _ _ _).mp h
        rw [← h1]
        simp [ih _ _ _ hr]

lemma srtPass_chain (store : List (Nat × Nat)) :
    ∀ recs n t ps cs, srtPass store recs n t = .ok (ps, cs) →
      (∀ h0 : 0 < cs.length, (cs.get ⟨0, h0⟩).startMs = t) ∧
      (∀ i, ∀ hi : i < cs.length,
        (cs.get ⟨i, hi⟩).endMs =
          (cs.get ⟨i, hi⟩).startMs + (cs.get ⟨i, hi⟩).durMs) ∧
      (∀ i, ∀ hi : i + 1 < cs.length,
        (cs.get ⟨i, Nat.lt_of_succ_lt hi⟩).endMs + 300 =
          (cs.get ⟨i + 1, hi⟩).startMs) := by
  intro recs
  induction recs with
  | nil =>
    intro n t ps cs h
    rw [srtPass] at h
    injection h with h
    obtain ⟨-, h2⟩ := (Prod.mk.injEq _ _ _ _).mp h
    rw [← h2]
    refine ⟨?_, ?_, ?_⟩
    · intro h0
      simp at h0
    · intro i hi
      simp at hi
    · intro i hi
      simp at hi
  | cons s rest ih =>
    intro n t ps cs h
    rw [srtPass] at h
    split at h
    · exact absurd h (by simp)
    · split at h
      · exact absurd h (by simp)
      · rename_i d hl ps1 cs1 hr
        injection h with h
        obtain ⟨-, h2⟩ := (Prod.mk.injEq _ _ _ _).mp h
        obtain ⟨ih1, ih2, ih3⟩ := ih _ _ _ _ hr
        rw [← h2]
        refine ⟨?_, ?_, ?_⟩
        · intro h0
          simp
        · intro i hi
          cases i with
          | zero => simp
          | succ j =>
            simp only [List.get_cons_succ]
            exact ih2 j (by simpa using hi)
        · intro i hi
          cases i with
          | zero =>
            have h0 : 0 < cs1.length := by simpa using hi
            simp [ih1 h0]
            exact (ih1 h0).symm
          | succ j =>
            simp only [List.get_cons_succ]
            exact ih3 j (by simpa using hi)

lemma dialogueRun_ok_inv {oracle : Oracle} {hp gp : Provider} {text : Str}
    {res : RunResult} (h : dialogueRun oracle hp gp text = .ok res) :
    (synthLoop oracle hp gp (parseScript text) 0).segs ≠ [] ∧
    srtPass (synthLoop oracle hp gp (parseScript text) 0).store
      (synthLoop oracle hp gp (parseScript text) 0).segs 0 0 =
        .ok (res.pieces, res.cues) ∧
    jsonPass (synthLoop oracle hp gp (parseScript text) 0).store
      (synthLoop oracle hp gp (parseScript text) 0).segs 0 =
        .ok (res.captions, res.totalMs) ∧
    res.dropped = (synthLoop oracle hp gp (parseScript text) 0).dropped := by
  simp only [dialogueRun] at h
  split at h
  · exact absurd h (by simp)
  · rename_i hsegs
    split at h
    · exact absurd h (by simp)
    · rename_i pieces cues hs
      split at h
      · exact absurd h (by simp)
      · rename_i caps total hj
        injection h with h
        rw [← h]
        exact ⟨hsegs, hs, hj, rfl⟩

/-- C1: every successful run's timeline starts at 0, each cue's end is
its start plus its segment's duration, adjacent cues are separated by
exactly the 300 ms pause, and the cues are strictly ordered and
non-overlapping. -/
theorem c1_timeline_invariant (oracle : Oracle) (hp gp : Provider)
    (text : Str) (res : RunResult)
    (h : dialogueRun oracle hp gp text = .ok res) :
    (∀ h0 : 0 < res.cues.length, (res.cues.get ⟨0, h0⟩).startMs = 0) ∧
    (∀ i, ∀ hi : i < res.cues.length,
      (res.cues.get ⟨i, hi⟩).endMs =
        (res.cues.get ⟨i, hi⟩).startMs + (res.cues.get ⟨i, hi⟩).durMs) ∧
    (∀ i, ∀ hi : i + 1 < res.cues.length,
      (res.cues.get ⟨i, Nat.lt_of_succ_lt hi⟩).endMs + 300 =
        (res.cues.get ⟨i + 1, hi⟩).startMs) ∧
    (∀ i, ∀ hi : i + 1 < res.cues.length,
      (res.cues.get ⟨i, Nat.lt_of_succ_lt hi⟩).startMs <
          (res.cues.get ⟨i + 1, hi⟩).startMs ∧
        (res.cues.get ⟨i, Nat.lt_of_succ_lt hi⟩).endMs <
          (res.cues.get ⟨i + 1, hi⟩).startMs) := by
  obtain ⟨hne, hs, hj, hd⟩ := dialogueRun_ok_inv h
  obtain ⟨h1, h2, h3⟩ := srtPass_chain _ _ _ _ _ _ hs
  refine ⟨h1, h2, h3, ?_⟩
  intro i hi
  have e2 := h2 i (Nat.lt_of_succ_lt hi)
  have e3 := h3 i hi
  omega

/-- Witness for C1 at the spec's worked example script with a constant
1000 ms oracle. -/
theorem c1_timeline_invariant_witness :
    dialogueRun (fun _ => some 1000) Provider.volc Provider.volc
        ("主持人：大家好。\n嘉宾：哈喷哈，你好！".toList) =
      .ok (getOk (dialogueRun (fun _ => some 1000) Provider.volc
        Provider.volc ("主持人：大家好。\n嘉宾：哈喷哈，你好！".toList))
          emptyRun) ∧
    (∀ h0 : 0 < (getOk (dialogueRun (fun _ => some 1000) Provider.volc
        Provider.volc ("主持人：大家好。\n嘉宾：哈喷哈，你好！".toList))
          emptyRun).cues.length,
      ((getOk (dialogueRun (fun _ => some 1000) Provider.volc
        Provider.volc ("主持人：大家好。\n嘉宾：哈喷哈，你好！".toList))
          emptyRun).cues.get ⟨0, h0⟩).startMs = 0) :=
  ⟨rfl,
    (c1_timeline_invariant (fun _ => some 1000) Provider.volc Provider.volc
      ("主持人：大家好。\n嘉宾：哈喷哈，你好！".toList) _ rfl).1⟩

lemma srt_json_quads (store : List (Nat × Nat)) :
    ∀ recs n t,
      Except.map (fun pr : List Piece × List Cue => pr.2.map cueQuad)
          (srtPass store recs n t) =
        Except.map (fun qr : List Caption × Nat => qr.1.map capQuad)
          (jsonPass store recs t) := by
  intro recs
  induction recs with
  | nil =>
    intro n t
    rfl
  | cons s rest ih =>
    intro n t
    rw [srtPass, jsonPass]
    cases hl : lookupDur store s.fileIdx with
    | none => rfl
    | some d =>
      have hih := ih (n + 1) (t + d + 300)
      cases hs : srtPass store rest (n + 1) (t + d + 300) with
      | error e =>
        cases hj : jsonPass store rest (t + d + 300) with
        | error e2 =>
          rw [hs, hj] at hih
          simp only [Except.map] at hih
          injection hih with he
          simp only [hs, hj, he]
          rfl
        | ok qr =>
          rw [hs, hj] at hih
          exact absurd hih (by simp [Except.map])
      | ok pr =>
        cases hj : jsonPass store rest (t + d + 300) with
        | error e2 =>
          rw [hs, hj] at hih
          exact absurd hih (by simp [Except.map])
        | ok qr =>
          obtain ⟨ps1, cs1⟩ := pr
          obtain ⟨caps1, total1⟩ := qr
          rw [hs, hj] at hih
          simp only [Except.map] at hih
          injection hih with he
          simp only [hs, hj]
          simp [Except.map, cueQuad, capQuad, he]

/-- C2: in every successful run, the (start, end, text, role) tuples of
the SRT cues and of the JSON captions are identical in value and order,
even though they are computed by two separate accumulation passes over
the segment files. -/
theorem c2_cross_artifact_consistency (oracle : Oracle) (hp gp : Provider)
    (text : Str) (res : RunResult)
    (h : dialogueRun oracle hp gp text = .ok res) :
    res.cues.map cueQuad = res.captions.map capQuad := by
  obtain ⟨-, hs, hj, -⟩ := dialogueRun_ok_inv h
  have hq := srt_json_quads (synthLoop oracle hp gp (parseScript text) 0).store
    (synthLoop oracle hp gp (parseScript text) 0).segs 0 0
  rw [hs, hj] at hq
  simp only [Except.map] at hq
  injection hq

/-- Witness for C2 at a concrete two-line script with a constant 700 ms
oracle. -/
theorem c2_cross_artifact_consistency_witness :
    dialogueRun (fun _ => some 700) Provider.volc Provider.volc
        ("主持人：早。\n嘉宾：好！".toList) =
      .ok (getOk (dialogueRun (fun _ => some 700) Provider.volc
        Provider.volc ("主持人：早。\n嘉宾：好！".toList)) emptyRun) ∧
    (getOk (dialogueRun (fun _ => some 700) Provider.volc Provider.volc
        ("主持人：早。\n嘉宾：好！".toList)) emptyRun).cues.map cueQuad =
      (getOk (dialogueRun (fun _ => some 700) Provider.volc Provider.volc
        ("主持人：早。\n嘉宾：好！".toList)) emptyRun).captions.map capQuad :=
  ⟨rfl,
    c2_cross_artifact_consistency (fun _ => some 700) Provider.volc
      Provider.volc ("主持人：早。\n嘉宾：好！".toList) _ rfl⟩

lemma srtPass_pieces (store : List (Nat × Nat)) :
    ∀ recs n t ps cs, srtPass store recs n t = .ok (ps, cs) →
      ps = cs.flatMap (fun c => [Piece.seg c.durMs, Piece.silence 300]) := by
  intro recs
  induction recs with
  | nil =>
    intro n t ps cs h
    rw [srtPass] at h
    injection h with h
    obtain ⟨h1, h2⟩ := (Prod.mk.injEq _ _ _ _).mp h
    rw [← h1, ← h2]
    rfl
  | cons s rest ih =>
    intro n t ps cs h
    rw [srtPass] at h
    split at h
    · exact absurd h (by simp)
    · split at h
      · exact absurd h (by simp)
      · rename_i d hl ps1 cs1 hr
        injection h with h
        obtain ⟨h1, h2⟩ := (Prod.mk.injEq _ _ _ _).mp h
        rw [← h1, ← h2]
        simp [List.flatMap_cons, ih _ _ _ _ hr]

lemma srtPass_jsonPass_total (store : List (Nat × Nat)) :
    ∀ recs n t t2 ps cs caps total,
      srtPass store recs n t = .ok (ps, cs) →
      jsonPass store recs t2 = .ok (caps, total) →
      total = t2 + (cs.map (fun c => c.durMs + 300)).sum := by
  intro recs
  induction recs with
  | nil =>
    intro n t t2 ps cs caps total h1 h2
    rw [srtPass] at h1
    rw [jsonPass] at h2
    injection h1 with h1
    injection h2 with h2
    obtain ⟨-, hc⟩ := (Prod.mk.injEq _ _ _ _).mp h1
    obtain ⟨-, ht⟩ := (Prod.mk.injEq _ _ _ _).mp h2
    rw [← hc, ← ht]
    simp
  | cons s rest ih =>
    intro n t t2 ps cs caps total h1 h2
    cases hl : lookupDur store s.fileIdx with
    | none =>
      rw [srtPass] at h1
      simp only [hl] at h1
      exact absurd h1 (by simp)
    | some d =>
      rw [srtPass] at h1
      rw [jsonPass] at h2
      simp only [hl] at h1 h2
      cases hr1 : srtPass store rest (n + 1) (t + d + 300) with
      | error e =>
        simp only [hr1] at h1
        exact absurd h1 (by simp)
      | ok pr =>
        obtain ⟨ps1, cs1⟩ := pr
        simp only [hr1] at h1
        cases hr2 : jsonPass store rest (t2 + d + 300) with
        | error e =>
          simp only [hr2] at h2
          exact absurd h2 (by simp)
        | ok qr =>
          obtain ⟨caps1, total1⟩ := qr
          simp only [hr2] at h2
          injection h1 with h1
          injection h2 with h2
          obtain ⟨-, hc⟩ := (Prod.mk.injEq _ _ _ _).mp h1
          obtain ⟨-, ht⟩ := (Prod.mk.injEq _ _ _ _).mp h2
          have hih := ih (n + 1) (t + d + 300) (t2 + d + 300) ps1 cs1
            caps1 total1 hr1 hr2
          rw [← hc, ← ht, hih]
          simp only [List.map_cons, List.sum_cons]
          omega

lemma jsonPass_last (store : List (Nat × Nat)) :
    ∀ recs t caps total, jsonPass store recs t = .ok (caps, total) →
      ∀ lc, caps.getLast? = some lc → total = lc.endMs + 300 := by
  intro recs
  induction recs with
  | nil =>
    intro t caps total h lc hlast
    rw [jsonPass] at h
    injection h with h
    obtain ⟨h1, -⟩ := (Prod.mk.injEq _ _ _ _).mp h
    rw [← h1] at hlast
    exact absurd hlast (by simp)
  | cons s rest ih =>
    intro t caps total h lc hlast
    cases hl : lookupDur store s.fileIdx with
    | none =>
      rw [jsonPass] at h
      simp only [hl] at h
      exact absurd h (by simp)
    | some d =>
      rw [jsonPass] at h
      simp only [hl] at h
      cases hr : jsonPass store rest (t + d + 300) with
      | error e =>
        simp only [hr] at h
        exact absurd h (by simp)
      | ok qr =>
        obtain ⟨caps1, total1⟩ := qr
        simp only [hr] at h
        injection h with h
        obtain ⟨h1, h2⟩ := (Prod.mk.injEq _ _ _ _).mp h
        rw [← h1] at hlast
        cases caps1 with
        | nil =>
          have hlen := jsonPass_len store rest (t + d + 300) [] total1 hr
          cases rest with
          | cons a b => simp at hlen
          | nil =>
            rw [jsonPass] at hr
            injection hr with hr
            obtain ⟨-, h4⟩ := (Prod.mk.injEq _ _ _ _).mp hr
            simp only [List.getLast?_singleton, Option.some.injEq] at hlast
            rw [← h2, ← h4, ← hlast]
        | cons c2 cs2 =>
          rw [List.getLast?_cons_cons] at hlast
          rw [← h2]
          exact ih (t + d + 300) (c2 :: cs2) total1 hr lc hlast

lemma pieces_last {cs : List Cue} (h : cs ≠ []) :
    (cs.flatMap (fun c => [Piece.seg c.durMs, Piece.silence 300])).getLast? =
      some (Piece.silence 300) := by
  induction cs with
  | nil => exact absurd rfl h
  | cons a rest ih =>
    cases rest with
    | nil => rfl
    | cons b rs =>
      rw [List.flatMap_cons]
      rw [List.getLast?_append_of_ne_nil _ (by simp [List.flatMap_cons])]
      exact ih (by simp)

/-- C10: every successful run's audio is the segments interleaved with a
300 ms silence after every segment including the last, so the exported
audio ends in a trailing 300 ms silence, and durationInSeconds is the sum
of all (durationMs + 300) divided by 1000, exceeding the last caption's
end time by exactly 300 ms. -/
theorem c10_trailing_pause (oracle : Oracle) (hp gp : Provider)
    (text : Str) (res : RunResult)
    (h : dialogueRun oracle hp gp text = .ok res) :
    res.pieces =
        res.cues.flatMap (fun c => [Piece.seg c.durMs, Piece.silence 300]) ∧
    res.pieces.getLast? = some (Piece.silence 300) ∧
    res.totalMs = (res.cues.map (fun c => c.durMs + 300)).sum ∧
    (∀ lc, res.captions.getLast? = some lc →
      durationInSeconds res * 1000 = (lc.endMs : ℚ) + 300) := by
  obtain ⟨hne, hs, hj, -⟩ := dialogueRun_ok_inv h
  have hpieces := srtPass_pieces _ _ _ _ _ _ hs
  have hcueslen := srtPass_len _ _ _ _ _ _ hs
  have htotal := srtPass_jsonPass_total _ _ _ _ _ _ _ _ _ hs hj
  refine ⟨hpieces, ?_, by simpa using htotal, ?_⟩
  · rw [hpieces]
    apply pieces_last
    intro hnil
    rw [hnil] at hcueslen
    exact hne (List.eq_nil_of_length_eq_zero hcueslen.symm)
  · intro lc hlast
    have hend := jsonPass_last _ _ _ _ _ hj lc hlast
    unfold durationInSeconds
    rw [div_mul_cancel₀ _ (by norm_num : (1000 : ℚ) ≠ 0)]
    rw [hend]
    push_cast
    ring

/-- Witness for C10 at a concrete one-line script with a 900 ms oracle. -/
theorem c10_trailing_pause_witness :
    dialogueRun (fun _ => some 900) Provider.volc Provider.volc
        ("主持人：你好。".toList) =
      .ok (getOk (dialogueRun (fun _ => some 900) Provider.volc
        Provider.volc ("主持人：你好。".toList)) emptyRun) ∧
    (getOk (dialogueRun (fun _ => some 900) Provider.volc Provider.volc
        ("主持人：你好。".toList)) emptyRun).pieces.getLast? =
      some (Piece.silence 300) :=
  ⟨rfl,
    (c10_trailing_pause (fun _ => some 900) Provider.volc Provider.volc
      ("主持人：你好。".toList) _ rfl).2.1⟩

/-- C3 evaluation at the failing input: with the Volcengine provider, the
chunk whose cleaned text is a bare ideographic period is skipped by the
provider (no failure, no retry), yet the dialogue loop still appends a
segment record for it, so the whole run aborts when the stitching phase
loads the never-written segment file — instead of the claimed silent
exclusion with the run proceeding normally. -/
theorem c3_skipped_chunk_breaks_run :
    cleanTextForTts ("（笑）。".toList) = "。".toList ∧
    synthOutcome (fun _ => some 800) Provider.volc ("（笑）。".toList) 1 =
      .skipped ∧
    (synthLoop (fun _ => some 800) Provider.volc Provider.volc
      (parseScript ("主持人：你好。\n嘉宾：（笑）。".toList)) 0).segs.length = 2 ∧
    dialogueRun (fun _ => some 800) Provider.volc Provider.volc
        ("主持人：你好。\n嘉宾：（笑）。".toList) =
      .error ("missing segment file".toList) :=
  ⟨rfl, rfl, rfl, rfl⟩

/-- C5 evaluation at the failing input: a run in which the second chunk
is successfully synthesized (at least one Segment exists) still raises,
because the first chunk was skipped as empty and its segment record
references a file that was never written — so the zero-Segment condition
is not the only fatal one. -/
theorem c5_run_with_segment_still_fails :
    synthOutcome (fun _ => some 1000) Provider.volc ("早上好。".toList) 1 =
      .audio 1000 ∧
    dialogueRun (fun _ => some 1000) Provider.volc Provider.volc
        ("主持人：（嗯）。\n嘉宾：早上好。".toList) =
      .error ("missing segment file".toList) :=
  ⟨rfl, rfl⟩

/-- C4 counterexample: a script of N = 1 chunks whose only chunk
permanently fails; the run aborts with the fatal no-segments error
instead of producing an artifact with N - 1 = 0 entries. -/
theorem c4_single_failing_chunk_aborts :
    (parseScript ("主持人：你好。".toList)).length = 1 ∧
    dialogueRun (fun _ => none) Provider.volc Provider.volc
        ("主持人：你好。".toList) =
      .error ("No audio segments generated.".toList) :=
  ⟨rfl, rfl⟩

lemma synthLoop_idx_ge (oracle : Oracle) (hp gp : Provider) :
    ∀ l b s, s ∈ (synthLoop oracle hp gp l b).segs → b ≤ s.fileIdx := by
  intro l
  induction l with
  | nil =>
    intro b s h
    simp [synthLoop] at h
  | cons rc rest ih =>
    intro b s h
    obtain ⟨r, ch⟩ := rc
    rw [synthLoop] at h
    cases ho : synthOutcome oracle (provOf hp gp r) ch b with
    | failed =>
      simp only [ho] at h
      have := ih (b + 1) s h
      omega
    | skipped =>
      simp only [ho] at h
      rcases List.mem_cons.mp h with rfl | h2
      · exact Nat.le_refl b
      · have := ih (b + 1) s h2
        omega
    | audio d =>
      simp only [ho] at h
      rcases List.mem_cons.mp h with rfl | h2
      · exact Nat.le_refl b
      · have := ih (b + 1) s h2
        omega

lemma synthLoop_all_ok (oracle : Oracle) (hp gp : Provider) :
    ∀ l b,
      (∀ j, ∀ hj : j < l.length,
        ∃ d, synthOutcome oracle (provOf hp gp (l.get ⟨j, hj⟩).1)
          (l.get ⟨j, hj⟩).2 (b + j) = .audio d) →
      (synthLoop oracle hp gp l b).segs.length = l.length ∧
      (synthLoop oracle hp gp l b).dropped = 0 ∧
      (∀ s ∈ (synthLoop oracle hp gp l b).segs,
        ∃ d, lookupDur (synthLoop oracle hp gp l b).store s.fileIdx = some d) := by
  intro l
  induction l with
  | nil =>
    intro b h
    refine ⟨rfl, rfl, ?_⟩
    intro s hs
    simp [synthLoop] at hs
  | cons rc rest ih =>
    intro b h
    obtain ⟨r, ch⟩ := rc
    obtain ⟨d0, hd0⟩ := h 0 (by simp)
    have hd0b : synthOutcome oracle (provOf hp gp r) ch b = .audio d0 := by
      simpa using hd0
    have hshift : ∀ j, ∀ hj : j < rest.length,
        ∃ d, synthOutcome oracle (provOf hp gp (rest.get ⟨j, hj⟩).1)
          (rest.get ⟨j, hj⟩).2 ((b + 1) + j) = .audio d := by
      intro j hj
      have h2 := h (j + 1) (by simp only [List.length_cons]; omega)
      simp only [List.get_cons_succ] at h2
      have he : (b + 1) + j = b + (j + 1) := by omega
      rw [he]
      exact h2
    obtain ⟨ih1, ih2, ih3⟩ := ih (b + 1) hshift
    rw [synthLoop]
    simp only [hd0b]
    refine ⟨by simp [ih1], by simp [ih2], ?_⟩
    intro s hs
    rcases List.mem_cons.mp hs with rfl | h2
    · exact ⟨d0, by simp [lookupDur, List.lookup]⟩
    · have hge := synthLoop_idx_ge oracle hp gp rest (b + 1) s h2
      have hne : s.fileIdx ≠ b := by omega
      obtain ⟨d, hd⟩ := ih3 s h2
      refine ⟨d, ?_⟩
      simp only [lookupDur, List.lookup]
      have hbeq : (s.fileIdx == b) = false := by simpa using hne
      rw [hbeq]
      exact hd

lemma synthLoop_one_fail (oracle : Oracle) (hp gp : Provider) :
    ∀ l b k, ∀ hk : k < l.length,
      synthOutcome oracle (provOf hp gp (l.get ⟨k, hk⟩).1)
        (l.get ⟨k, hk⟩).2 (b + k) = .failed →
      (∀ j, ∀ hj : j < l.length, j ≠ k →
        ∃ d, synthOutcome oracle (provOf hp gp (l.get ⟨j, hj⟩).1)
          (l.get ⟨j, hj⟩).2 (b + j) = .audio d) →
      (synthLoop oracle hp gp l b).segs.length = l.length - 1 ∧
      (synthLoop oracle hp gp l b).dropped = 1 ∧
      (∀ s ∈ (synthLoop oracle hp gp l b).segs,
        ∃ d, lookupDur (synthLoop oracle hp gp l b).store s.fileIdx = some d) := by
  intro l
  induction l with
  | nil =>
    intro b k hk
    simp at hk
  | cons rc rest ih =>
    intro b k hk hfail hok
    obtain ⟨r, ch⟩ := rc
    cases k with
    | zero =>
      have hf : synthOutcome oracle (provOf hp gp r) ch b = .failed := by
        simpa using hfail
      have hshift : ∀ j, ∀ hj : j < rest.length,
          ∃ d, synthOutcome oracle (provOf hp gp (rest.get ⟨j, hj⟩).1)
            (rest.get ⟨j, hj⟩).2 ((b + 1) + j) = .audio d := by
        intro j hj
        have h2 := hok (j + 1) (by simp only [List.length_cons]; omega)
          (by omega)
        simp only [List.get_cons_succ] at h2
        have he : (b + 1) + j = b + (j + 1) := by omega
        rw [he]
        exact h2
      obtain ⟨ih1, ih2, ih3⟩ := synthLoop_all_ok oracle hp gp rest (b + 1)
        hshift
      rw [synthLoop]
      simp only [hf]
      exact ⟨by simp [ih1], by simp [ih2], ih3⟩
    | succ k0 =>
      have hk0 : k0 < rest.length := by
        simp only [List.length_cons] at hk
        omega
      obtain ⟨d0, hd0⟩ := hok 0 (by simp) (by omega)
      have hd0b : synthOutcome oracle (provOf hp gp r) ch b = .audio d0 := by
        simpa using hd0
      have hfail2 : synthOutcome oracle
          (provOf hp gp (rest.get ⟨k0, hk0⟩).1)
          (rest.get ⟨k0, hk0⟩).2 ((b + 1) + k0) = .failed := by
        have h2 := hfail
        simp only [List.get_cons_succ] at h2
        have he : (b + 1) + k0 = b + (k0 + 1) := by omega
        rw [he]
        exact h2
      have hshift : ∀ j, ∀ hj : j < rest.length, j ≠ k0 →
          ∃ d, synthOutcome oracle (provOf hp gp (rest.get ⟨j, hj⟩).1)
            (rest.get ⟨j, hj⟩).2 ((b + 1) + j) = .audio d := by
        intro j hj hne
        have h2 := hok (j + 1) (by simp only [List.length_cons]; omega)
          (by omega)
        simp only [List.get_cons_succ] at h2
        have he : (b + 1) + j = b + (j + 1) := by omega
        rw [he]
        exact h2
      obtain ⟨ih1, ih2, ih3⟩ := ih (b + 1) k0 hk0 hfail2 hshift
      rw [synthLoop]
      simp only [hd0b]
      refine ⟨?_, by simp [ih2], ?_⟩
      · simp only [List.length_cons, ih1]
        omega
      · intro s hs
        rcases List.mem_cons.mp hs with rfl | h2
        · exact ⟨d0, by simp [lookupDur, List.lookup]⟩
        · have hge := synthLoop_idx_ge oracle hp gp rest (b + 1) s h2
          have hne : s.fileIdx ≠ b := by omega
          obtain ⟨d, hd⟩ := ih3 s h2
          refine ⟨d, ?_⟩
          simp only [lookupDur, List.lookup]
          have hbeq : (s.fileIdx == b) = false := by simpa using hne
          rw [hbeq]
          exact hd

lemma srtPass_total_of_cover (store : List (Nat × Nat)) :
    ∀ recs n t,
      (∀ s ∈ recs, ∃ d, lookupDur store s.fileIdx = some d) →
      ∃ ps cs, srtPass store recs n t = .ok (ps, cs) := by
  intro recs
  induction recs with
  | nil =>
    intro n t _
    exact ⟨[], [], rfl⟩
  | cons s rest ih =>
    intro n t hcov
    obtain ⟨d, hd⟩ := hcov s (List.mem_cons_self s rest)
    obtain ⟨ps1, cs1, hr⟩ := ih (n + 1) (t + d + 300)
      (fun x hx => hcov x (List.mem_cons_of_mem _ hx))
    rw [srtPass]
    simp only [hd, hr]
    exact ⟨_, _, rfl⟩

lemma jsonPass_total_of_cover (store : List (Nat × Nat)) :
    ∀ recs t,
      (∀ s ∈ recs, ∃ d, lookupDur store s.fileIdx = some d) →
      ∃ caps total, jsonPass store recs t = .ok (caps, total) := by
  intro recs
  induction recs with
  | nil =>
    intro t _
    exact ⟨[], t, rfl⟩
  | cons s rest ih =>
    intro t hcov
    obtain ⟨d, hd⟩ := hcov s (List.mem_cons_self s rest)
    obtain ⟨caps1, total1, hr⟩ := ih (t + d + 300)
      (fun x hx => hcov x (List.mem_cons_of_mem _ hx))
    rw [jsonPass]
    simp only [hd, hr]
    exact ⟨_, _, rfl⟩

/-- C4 amended: for every script parsing to at least two chunks in which
exactly one chunk's synthesis permanently fails and every other chunk
succeeds with audio, the run does not abort: the artifact carries exactly
N - 1 timeline entries (both as SRT cues and as JSON captions) and
exactly one dropped-chunk error report. -/
theorem c4_partial_failure_resilience (oracle : Oracle) (hp gp : Provider)
    (text : Str) (k : Nat) (hk : k < (parseScript text).length)
    (hN : 2 ≤ (parseScript text).length)
    (hfail : synthOutcome oracle
      (provOf hp gp ((parseScript text).get ⟨k, hk⟩).1)
      ((parseScript text).get ⟨k, hk⟩).2 k = .failed)
    (hok : ∀ j, ∀ hj : j < (parseScript text).length, j ≠ k →
      ∃ d, synthOutcome oracle
        (provOf hp gp ((parseScript text).get ⟨j, hj⟩).1)
        ((parseScript text).get ⟨j, hj⟩).2 j = .audio d) :
    ∃ res, dialogueRun oracle hp gp text = .ok res ∧
      res.cues.length = (parseScript text).length - 1 ∧
      res.captions.length = (parseScript text).length - 1 ∧
      res.dropped = 1 := by
  have hfail0 : synthOutcome oracle
      (provOf hp gp ((parseScript text).get ⟨k, hk⟩).1)
      ((parseScript text).get ⟨k, hk⟩).2 (0 + k) = .failed := by
    rw [Nat.zero_add]
    exact hfail
  have hok0 : ∀ j, ∀ hj : j < (parseScript text).length, j ≠ k →
      ∃ d, synthOutcome oracle
        (provOf hp gp ((parseScript text).get ⟨j, hj⟩).1)
        ((parseScript text).get ⟨j, hj⟩).2 (0 + j) = .audio d := by
    intro j hj hne
    rw [Nat.zero_add]
    exact hok j hj hne
  obtain ⟨hlen, hdrop, hcover⟩ :=
    synthLoop_one_fail oracle hp gp (parseScript text) 0 k hk hfail0 hok0
  have hne : (synthLoop oracle hp gp (parseScript text) 0).segs ≠ [] := by
    intro hnil
    rw [hnil] at hlen
    simp at hlen
    omega
  obtain ⟨ps, cs, hs⟩ := srtPass_total_of_cover _ _ 0 0 hcover
  obtain ⟨caps, total, hj⟩ := jsonPass_total_of_cover _ _ 0 hcover
  refine ⟨⟨ps, cs, caps, total,
    (synthLoop oracle hp gp (parseScript text) 0).dropped⟩, ?_, ?_, ?_, ?_⟩
  · simp only [dialogueRun]
    rw [if_neg hne]
    simp only [hs, hj]
  · have := srtPass_len _ _ _ _ _ _ hs
    simp only at this ⊢
    omega
  · have := jsonPass_len _ _ _ _ _ hj
    simp only at this ⊢
    omega
  · simpa using hdrop

/-- Witness for the amended C4: a two-chunk script whose second chunk
permanently fails while the first succeeds. -/
theorem c4_partial_failure_resilience_witness :
    (1 < (parseScript ("主持人：你好。\n嘉宾：真好。".toList)).length) ∧
    (2 ≤ (parseScript ("主持人：你好。\n嘉宾：真好。".toList)).length) ∧
    (∃ res, dialogueRun (fun i => if i = 1 then none else some 500)
        Provider.volc Provider.volc
        ("主持人：你好。\n嘉宾：真好。".toList) = .ok res ∧
      res.cues.length =
        (parseScript ("主持人：你好。\n嘉宾：真好。".toList)).length - 1 ∧
      res.captions.length =
        (parseScript ("主持人：你好。\n嘉宾：真好。".toList)).length - 1 ∧
      res.dropped = 1) :=
  ⟨by decide, by decide,
    c4_partial_failure_resilience (fun i => if i = 1 then none else some 500)
      Provider.volc Provider.volc ("主持人：你好。\n嘉宾：真好。".toList) 1
      (by decide) (by decide) (by decide)
      (by
        intro j hj hne
        cases j with
        | zero => exact ⟨500, rfl⟩
        | succ j0 =>
          cases j0 with
          | zero => exact absurd rfl hne
          | succ j1 =>
            have hl2 :
                (parseScript ("主持人：你好。\n嘉宾：真好。".toList)).length = 2 :=
              rfl
            rw [hl2] at hj
            exact absurd hj (by omega))⟩

lemma countSubmits_replicate_poll (n : Nat) (id : Str) :
    countSubmits (List.replicate n (TEvent.poll id)) = 0 := by
  unfold countSubmits
  rw [List.countP_eq_zero]
  intro e he
  rw [List.eq_of_mem_replicate he]
  simp

/-- C8 counterexample: two audio files with identical content at two
different paths; transcribing both performs two remote submissions,
because the cache is keyed by the audio file path rather than by the
input's content identity. -/
theorem c8_same_content_two_submissions :
    List.lookup ("a.mp3".toList) stC.fs =
      List.lookup ("b.mp3".toList) stC.fs ∧
    countSubmits
        ((transcribeVolc envC stC ("a.mp3".toList) none false).2.2 ++
          (transcribeVolc envC
            (transcribeVolc envC stC ("a.mp3".toList) none false).2.1
            ("b.mp3".toList) none false).2.2) = 2 :=
  ⟨rfl, rfl⟩

/-- C8 amended: the transcript cache is keyed by the audio file path: a
first call on an uncached path submits exactly once, and a second call
with the same path performs no remote interaction at all and returns the
transcript the first call persisted. -/
theorem c8_cache_idempotent_per_path (env : RemoteEnv) (st : TransState)
    (path content t : Str) (hasCb : Bool)
    (hfs : List.lookup path st.fs = some content)
    (hmiss : List.lookup path st.cache = none)
    (hfin : env.final (env.submitId (env.urlOf content)) = .ok t) :
    (transcribeVolc env st path none hasCb).1 = .ok t ∧
    countSubmits (transcribeVolc env st path none hasCb).2.2 = 1 ∧
    (transcribeVolc env (transcribeVolc env st path none hasCb).2.1 path
        none hasCb).1 = .ok t ∧
    (transcribeVolc env (transcribeVolc env st path none hasCb).2.1 path
        none hasCb).2.2 = [] := by
  have hrun : transcribeVolc env st path none hasCb =
      (.ok t, ⟨st.fs, (path, t) :: st.cache⟩,
        ([TEvent.upload path, TEvent.submit (env.urlOf content)] ++
          (if hasCb then [TEvent.callback (env.submitId (env.urlOf content))]
            else [])) ++
          List.replicate (env.pending (env.submitId (env.urlOf content)) + 1)
            (TEvent.poll (env.submitId (env.urlOf content)))) := by
    rw [transcribeVolc]
    simp only [hfs, hmiss, hfin]
  rw [hrun]
  refine ⟨rfl, ?_, ?_, ?_⟩
  · simp only [countSubmits] at *
    simp only [List.countP_append]
    have hrep := countSubmits_replicate_poll
      (env.pending (env.submitId (env.urlOf content)) + 1)
      (env.submitId (env.urlOf content))
    simp only [countSubmits] at hrep
    rw [hrep]
    cases hasCb <;> simp [List.countP_cons]
  · rw [transcribeVolc]
    simp only [hfs]
    simp [List.lookup]
  · rw [transcribeVolc]
    simp only [hfs]
    simp [List.lookup]

/-- Witness for the amended C8 at a concrete environment and state. -/
theorem c8_cache_idempotent_per_path_witness :
    List.lookup ("p.mp3".toList) stR.fs = some ("C".toList) ∧
    List.lookup ("p.mp3".toList) stR.cache = none ∧
    envR.final (envR.submitId (envR.urlOf ("C".toList))) =
      .ok ("好".toList) ∧
    ((transcribeVolc envR stR ("p.mp3".toList) none true).1 =
        .ok ("好".toList) ∧
      countSubmits (transcribeVolc envR stR ("p.mp3".toList) none
        true).2.2 = 1 ∧
      (transcribeVolc envR
        (transcribeVolc envR stR ("p.mp3".toList) none true).2.1
        ("p.mp3".toList) none true).1 = .ok ("好".toList) ∧
      (transcribeVolc envR
        (transcribeVolc envR stR ("p.mp3".toList) none true).2.1
        ("p.mp3".toList) none true).2.2 = []) :=
  ⟨rfl, rfl, rfl,
    c8_cache_idempotent_per_path envR stR ("p.mp3".toList) ("C".toList)
      ("好".toList) true rfl rfl rfl⟩

/-- C9: with a resume task id the state machine goes straight to polling
that id — its trace holds no upload, submission or callback event, only
polls of the supplied id; with a fresh submission and a callback
installed, the callback event carries the issued task id and sits
immediately after the submission event and before the first poll. -/
theorem c9_resume_and_callback_order (env : RemoteEnv) (st : TransState)
    (path content rid : Str)
    (hfs : List.lookup path st.fs = some content)
    (hmiss : List.lookup path st.cache = none) :
    (transcribeVolc env st path (some rid) true).2.2 =
      List.replicate (env.pending rid + 1) (TEvent.poll rid) ∧
    (transcribeVolc env st path none true).2.2 =
      [TEvent.upload path, TEvent.submit (env.urlOf content),
        TEvent.callback (env.submitId (env.urlOf content))] ++
        List.replicate (env.pending (env.submitId (env.urlOf content)) + 1)
          (TEvent.poll (env.submitId (env.urlOf content))) := by
  constructor
  · rw [transcribeVolc]
    simp only [hfs, hmiss]
    cases env.final rid <;> simp
  · rw [transcribeVolc]
    simp only [hfs, hmiss]
    cases env.final (env.submitId (env.urlOf content)) <;> simp

/-- Witness for C9 at a concrete environment, state and resume id. -/
theorem c9_resume_and_callback_order_witness :
    List.lookup ("p.mp3".toList) stR.fs = some ("C".toList) ∧
    List.lookup ("p.mp3".toList) stR.cache = none ∧
    ((transcribeVolc envR stR ("p.mp3".toList) (some ("T9".toList))
        true).2.2 =
      List.replicate (envR.pending ("T9".toList) + 1)
        (TEvent.poll ("T9".toList)) ∧
    (transcribeVolc envR stR ("p.mp3".toList) none true).2.2 =
      [TEvent.upload ("p.mp3".toList),
        TEvent.submit (envR.urlOf ("C".toList)),
        TEvent.callback (envR.submitId (envR.urlOf ("C".toList)))] ++
        List.replicate
          (envR.pending (envR.submitId (envR.urlOf ("C".toList))) + 1)
          (TEvent.poll (envR.submitId (envR.urlOf ("C".toList))))) :=
  ⟨rfl, rfl,
    c9_resume_and_callback_order envR stR ("p.mp3".toList) ("C".toList)
      ("T9".toList) rfl rfl⟩

end Video2Pod
